import Mathlib

/-!
Shallow embedding of the histogram-based Kolmogorov-coefficient estimation
pipeline (files Diffusion/diffusion_1d_paper_figures.py and
ABC_Flow/abc_flow_paper_figures.py).  Sample data are lists of rationals;
numpy's equal-width histograms with density normalization are embedded
exactly, including the half-unit widening numpy applies to a degenerate
(min = max) range.
-/

/-- Effective lower range edge: numpy widens a degenerate range by 0.5. -/
def elo (lo hi : ℚ) : ℚ := if lo = hi then lo - 1/2 else lo

/-- Effective upper range edge: numpy widens a degenerate range by 0.5. -/
def ehi (lo hi : ℚ) : ℚ := if lo = hi then hi + 1/2 else hi

/-- Equal-width bin edges over the range, edge i of n+1 edges. -/
def edges (lo hi : ℚ) (n : ℕ) (i : ℕ) : ℚ := lo + (hi - lo) * i / n

/-- Width of each of the n equal bins. -/
def binWidth (lo hi : ℚ) (n : ℕ) : ℚ := (hi - lo) / n

/-- Bin centers, the midpoint recentering 0.5*(edges[1:] + edges[:-1]). -/
def histCenters (lo hi : ℚ) (n : ℕ) (i : ℕ) : ℚ :=
  (edges lo hi n i + edges lo hi n (i + 1)) / 2

/-- Membership of a sample in bin i of n: half-open bins, the last bin
also includes the right range edge (numpy histogram semantics). -/
def memBin (lo hi : ℚ) (n i : ℕ) (x : ℚ) : Prop :=
  edges lo hi n i ≤ x ∧ (i + 1 = n → x ≤ hi) ∧ (i + 1 ≠ n → x < edges lo hi n (i + 1))

instance (lo hi : ℚ) (n i : ℕ) (x : ℚ) : Decidable (memBin lo hi n i x) := by
  unfold memBin; infer_instance

/-- The bin index an in-range sample falls into. -/
def binIdx (lo hi : ℚ) (n : ℕ) (x : ℚ) : ℕ :=
  min (Nat.floor ((x - lo) * n / (hi - lo))) (n - 1)

/-- Count of samples landing in bin i. -/
def count1 (l : List ℚ) (lo hi : ℚ) (n i : ℕ) : ℕ :=
  l.countP (fun x => decide (memBin lo hi n i x))

/-- Sum of all bin counts (what numpy divides by under density=True). -/
def total1 (l : List ℚ) (lo hi : ℚ) (n : ℕ) : ℕ :=
  Finset.sum (Finset.range n) (fun i => count1 l lo hi n i)

/-- Normalized density value of bin i: count / (total * width). -/
def dens1 (l : List ℚ) (lo hi : ℚ) (n i : ℕ) : ℚ :=
  (count1 l lo hi n i : ℚ) / ((total1 l lo hi n : ℚ) * binWidth lo hi n)

/-- np.histogram(l, range=(lo,hi), bins=n, density=True): density values. -/
def npHistogram (l : List ℚ) (lo hi : ℚ) (n : ℕ) : ℕ → ℚ :=
  dens1 l (elo lo hi) (ehi lo hi) n

/-- Bin centers of the same histogram. -/
def npCenters (lo hi : ℚ) (n : ℕ) : ℕ → ℚ :=
  histCenters (elo lo hi) (ehi lo hi) n

/-- Bin centers as the list the source hands around as y. -/
def densityCenters (lo hi : ℚ) (n : ℕ) : List ℚ :=
  (List.range n).map (npCenters lo hi n)

/-- The density operation of the source: PDF values together with bin
centers (function density, diffusion_1d_paper_figures.py lines 113-119). -/
def density (Ydata : List ℚ) (lo hi : ℚ) (n : ℕ) : (ℕ → ℚ) × List ℚ :=
  (npHistogram Ydata lo hi n, densityCenters lo hi n)

/-- Minimum of a list of rationals, as the python builtin min (0 on []). -/
def listMin : List ℚ → ℚ
  | [] => 0
  | x :: xs => xs.foldl min x

/-- Maximum of a list of rationals, as the python builtin max (0 on []). -/
def listMax : List ℚ → ℚ
  | [] => 0
  | x :: xs => xs.foldl max x

/-- Count of sample pairs landing in the 2D bin (i, j). -/
def count2 (l : List (ℚ × ℚ)) (lox hix loy hiy : ℚ) (n i j : ℕ) : ℕ :=
  l.countP (fun p => decide (memBin lox hix n i p.1 ∧ memBin loy hiy n j p.2))

/-- Sum of all 2D bin counts (numpy's density normalizer). -/
def total2 (l : List (ℚ × ℚ)) (lox hix loy hiy : ℚ) (n : ℕ) : ℕ :=
  Finset.sum (Finset.range n) (fun i =>
    Finset.sum (Finset.range n) (fun j => count2 l lox hix loy hiy n i j))

/-- Normalized 2D density value: count / (total * width_x * width_y). -/
def dens2 (l : List (ℚ × ℚ)) (lox hix loy hiy : ℚ) (n i j : ℕ) : ℚ :=
  (count2 l lox hix loy hiy n i j : ℚ) /
    ((total2 l lox hix loy hiy n : ℚ) * binWidth lox hix n * binWidth loy hiy n)

/-- np.histogram2d(X, Y, range=((lox,hix),(loy,hiy)), bins=n, density=True). -/
def npHistogram2d (X Y : List ℚ) (lox hix loy hiy : ℚ) (n : ℕ) : ℕ → ℕ → ℚ :=
  dens2 (X.zip Y) (elo lox hix) (ehi lox hix) (elo loy hiy) (ehi loy hiy) n

/-- The diffusion operation (diffusion_1d_paper_figures.py lines 121-135):
joint histogram of (Y, squared gradient) over the caller range on the Y
axis and the data min/max on the gradient axis, then minus the
conditional expectation obtained by dividing the first conditional moment
by the Y-marginal of the same joint histogram. -/
def diffusion (dY2 Ydata : List ℚ) (lo hi : ℚ) (n : ℕ) : ℕ → ℚ :=
  fun i =>
    let mn := listMin dY2
    let mx := listMax dY2
    let f := npHistogram2d Ydata dY2 lo hi mn mx n
    let phic := histCenters (elo mn mx) (ehi mn mx) n
    let dphi := phic 1 - phic 0
    let fY := (Finset.sum (Finset.range n) (fun j => f i j)) * dphi;
    -(((Finset.sum (Finset.range n) (fun j => phic j * f i j)) * dphi) / fY)

/-- The Expectation operation (diffusion_1d_paper_figures.py lines 137-144):
joint histogram whose state-variable range is (min y, max y) for the bin
center list y, gradient range from the gradient data; it returns the
unnormalized first conditional moment (no division by a marginal). -/
def Expectation (Y dY y : List ℚ) (n : ℕ) : ℕ → ℚ :=
  fun i =>
    let f := npHistogram2d Y dY (listMin y) (listMax y) (listMin dY) (listMax dY) n
    let phic := histCenters (elo (listMin dY) (listMax dY)) (ehi (listMin dY) (listMax dY)) n
    let dphi := phic 1 - phic 0
    (Finset.sum (Finset.range n) (fun j => phic j * f i j)) * dphi

/-- The drift operation (diffusion_1d_paper_figures.py lines 146-151). -/
def drift (f : ℕ → ℚ) (y Y0 Y1 Yz0 Yz1 : List ℚ) (n : ℕ) : ℕ → ℚ :=
  fun i => (Expectation Y1 Yz1 y n i - Expectation Y0 Yz0 y n i) / f i

/-- Modelled from the spec's words (sections 4.5 and 4.6): a conditional
expectation computed from a joint histogram whose state-variable bins are
identical to those of the marginal density f (same range lo..hi and bin
count), dividing the first conditional moment by the marginal recovered
from the same joint histogram.  Used only to compare the spec's described
drift against the implemented one. -/
def condExpSpec (Y dY : List ℚ) (lo hi : ℚ) (n : ℕ) : ℕ → ℚ :=
  fun i =>
    let f := npHistogram2d Y dY lo hi (listMin dY) (listMax dY) n
    let phic := histCenters (elo (listMin dY) (listMax dY)) (ehi (listMin dY) (listMax dY)) n
    let dphi := phic 1 - phic 0
    (((Finset.sum (Finset.range n) (fun j => phic j * f i j)) * dphi) /
      ((Finset.sum (Finset.range n) (fun j => f i j)) * dphi))

/-- Modelled from the spec's words (section 4.6): drift coefficient built
from boundary conditional expectations over bins identical to f's. -/
def driftSpec (f : ℕ → ℚ) (lo hi : ℚ) (Y0 Y1 Yz0 Yz1 : List ℚ) (n : ℕ) : ℕ → ℚ :=
  fun i => (condExpSpec Y1 Yz1 lo hi n i - condExpSpec Y0 Yz0 lo hi n i) / f i

/-- The spatial central-difference matrix built in Plot_Terms
(diffusion_1d_paper_figures.py lines 278-285): entry 1 above the diagonal
except in the last row, entry -1 below the diagonal except in the first
row, all scaled by 0.5/(y[1]-y[0]). -/
def Dmat (y : List ℚ) (i j : ℕ) : ℚ :=
  (if i < y.length - 1 ∧ j = i + 1 then 1
   else if 0 < i ∧ j + 1 = i then -1 else 0) * (1 / 2 / (y.getD 1 0 - y.getD 0 0))

/-- The matrix-vector product D @ v over the bin-center grid. -/
def Dapply (y : List ℚ) (v : ℕ → ℚ) (i : ℕ) : ℚ :=
  Finset.sum (Finset.range y.length) (fun j => Dmat y i j * v j)

/-- The 5-point backward-biased time-derivative stencil
(abc_flow_paper_figures.py lines 109-112), applied componentwise to four
of the five captured density snapshots and divided by dt. -/
def timeDeriv (fp2 fp1 fm1 fm2 : ℕ → ℚ) (dt : ℚ) : ℕ → ℚ :=
  fun i => ((-1/12) * fp2 i + (2/3) * fp1 i - (2/3) * fm1 i + (1/12) * fm2 i) / dt

/-- The Ornstein-Uhlenbeck Euler-Maruyama step
(diffusion_1d_paper_figures.py lines 36-44). -/
noncomputable def OU (Yt Wt dt mu a sig : ℝ) : ℝ :=
  let dWt := Real.sqrt dt * Wt
  Yt + a * (mu - Yt) * dt + sig * dWt

/-- np.interp: piecewise-linear interpolation through the (x, y) pairs,
constant beyond the first and last nodes. -/
def interp (t : ℚ) : List (ℚ × ℚ) → ℚ
  | [] => 0
  | [p] => p.2
  | p :: q :: rest =>
      if t ≤ p.1 then p.2
      else if t ≤ q.1 then p.2 + (q.2 - p.2) * (t - p.1) / (q.1 - p.1)
      else interp t (q :: rest)

/-- The spacing the resampler in Data (diffusion_1d_paper_figures.py
lines 156-174) actually uses: the first adjacent spacing z[1]-z[0]. -/
def chebStep (zs : List ℚ) : ℚ := zs.getD 1 0 - zs.getD 0 0

/-- np.arange(0, 1, dz): the uniform output grid of the resampler. -/
def outGrid (dz : ℚ) : List ℚ :=
  (List.range (Nat.ceil ((1 : ℚ) / dz))).map (fun k : ℕ => (k : ℚ) * dz)

/-- The grid resampler of Data: linear interpolation of the native-grid
values onto the uniform grid of spacing z[1]-z[0]. -/
def resample (zs vs : List ℚ) : List ℚ :=
  (outGrid (chebStep zs)).map (fun t => interp t (zs.zip vs))

/-- Modelled from the spec's words (section 4.3): the smallest adjacent
spacing of the native grid, for comparison with the spacing the code uses. -/
def minAdjSpacing (l : List ℚ) : ℚ :=
  listMin (List.zipWith (fun a b => b - a) l l.tail)

/-- Model of the numpy global random state: the seed installed by the
last np.random.seed call together with the number of variates drawn from
it since.  numpy's generator is deterministic given the seed, so the
variate stream is abstracted by a function of (seed, position). -/
structure RngState where
  seed : ℕ
  drawn : ℕ

/-- Model of np.random.seed(s): resets the global state. -/
def npSeed (s : ℕ) (_ : RngState) : RngState := ⟨s, 0⟩

/-- Model of scipy.stats.norm.rvs drawing k variates from the numpy
global state, for an abstract deterministic variate stream g. -/
def normRvs (g : ℕ → ℕ → ℝ) (k : ℕ) (st : RngState) : List ℝ × RngState :=
  ((List.range k).map (fun j => g st.seed (st.drawn + j)), ⟨st.seed, st.drawn + k⟩)

/-- The random-number behaviour of Solve (diffusion_1d_paper_figures.py
lines 80-83): np.random.seed(42), then the N-by-2 increment table is
drawn (row-major flattened here) only when none was supplied. -/
def solveDraws (g : ℕ → ℕ → ℝ) (N : ℕ) (Wsup : Option (List ℝ)) (st : RngState) :
    List ℝ × RngState :=
  let st1 := npSeed 42 st
  match Wsup with
  | some w => (w, st1)
  | none => normRvs g (N * 2) st1

/-- The random-number behaviour of Generate_Ensemble
(diffusion_1d_paper_figures.py lines 176-196): one Solve call with no
supplied table, then the ensemble increment table of N*2*Paths variates
drawn from the resulting state. -/
def ensembleDraws (g : ℕ → ℕ → ℝ) (N P : ℕ) (st : RngState) : List ℝ × RngState :=
  normRvs g (N * 2 * P) (solveDraws g N none st).2

/-- An abstract deterministic external solver, exposing exactly what the
main loop of Solve uses: an initial state, a step taking the two
boundary values, and evaluation of the field at each boundary. -/
structure SolverModel (S : Type) where
  init : S
  step : S → ℝ → ℝ → S
  eval0 : S → ℝ
  eval1 : S → ℝ

/-- The increments W[n,0] and W[n,1] read from the flat table. -/
def Wrow (w : List ℝ) (k : ℕ) : ℝ × ℝ := (w.getD (2 * k) 0, w.getD (2 * k + 1) 0)

/-- Solver state after n iterations of the main loop of Solve
(diffusion_1d_paper_figures.py lines 90-101): each step prescribes
OU-updated boundary values from the current boundary field values and
the increment row, then advances the solver. -/
noncomputable def loopState {S : Type} (M : SolverModel S) (w : List ℝ) (dt a sig : ℝ) :
    ℕ → S
  | 0 => M.init
  | n + 1 =>
      let s := loopState M w dt a sig n
      M.step s (OU (M.eval0 s) (Wrow w n).1 dt 0 a sig)
        (OU (M.eval1 s) (Wrow w n).2 dt 1 a sig)

/-- The boundary values (g0, g1) prescribed at iteration n. -/
noncomputable def boundaryVals {S : Type} (M : SolverModel S) (w : List ℝ) (dt a sig : ℝ)
    (n : ℕ) : ℝ × ℝ :=
  let s := loopState M w dt a sig n
  (OU (M.eval0 s) (Wrow w n).1 dt 0 a sig, OU (M.eval1 s) (Wrow w n).2 dt 1 a sig)

/-! Supporting lemmas. -/

lemma foldl_min_le_init (l : List ℚ) : ∀ a : ℚ, l.foldl min a ≤ a := by
  induction l with
  | nil => intro a; simp
  | cons x xs ih =>
      intro a
      simpa using le_trans (ih (min a x)) (min_le_left a x)

lemma foldl_min_le_mem (l : List ℚ) : ∀ a x : ℚ, x ∈ l → l.foldl min a ≤ x := by
  induction l with
  | nil => intro a x hx; cases hx
  | cons y ys ih =>
      intro a x hx
      rcases List.mem_cons.mp hx with h | h
      · subst h
        simpa using le_trans (foldl_min_le_init ys (min a x)) (min_le_right a x)
      · simpa using ih (min a y) x h

lemma init_le_foldl_max (l : List ℚ) : ∀ a : ℚ, a ≤ l.foldl max a := by
  induction l with
  | nil => intro a; simp
  | cons x xs ih =>
      intro a
      simpa using le_trans (le_max_left a x) (ih (max a x))

lemma mem_le_foldl_max (l : List ℚ) : ∀ a x : ℚ, x ∈ l → x ≤ l.foldl max a := by
  induction l with
  | nil => intro a x hx; cases hx
  | cons y ys ih =>
      intro a x hx
      rcases List.mem_cons.mp hx with h | h
      · subst h
        simpa using le_trans (le_max_right a x) (init_le_foldl_max ys (max a x))
      · simpa using ih (max a y) x h

lemma listMin_le {l : List ℚ} {x : ℚ} (h : x ∈ l) : listMin l ≤ x := by
  cases l with
  | nil => cases h
  | cons y ys =>
      rcases List.mem_cons.mp h with h | h
      · subst h; exact foldl_min_le_init ys x
      · exact foldl_min_le_mem ys y x h

lemma le_listMax {l : List ℚ} {x : ℚ} (h : x ∈ l) : x ≤ listMax l := by
  cases l with
  | nil => cases h
  | cons y ys =>
      rcases List.mem_cons.mp h with h | h
      · subst h; exact init_le_foldl_max ys x
      · exact mem_le_foldl_max ys y x h

lemma listMin_le_listMax (l : List ℚ) : listMin l ≤ listMax l := by
  cases l with
  | nil => exact le_refl 0
  | cons y ys => exact le_trans (listMin_le (List.mem_cons_self y ys)) (le_listMax (List.mem_cons_self y ys))

lemma elo_lt_ehi {lo hi : ℚ} (h : lo ≤ hi) : elo lo hi < ehi lo hi := by
  unfold elo ehi
  by_cases hc : lo = hi
  · rw [if_pos hc, if_pos hc]; linarith
  · rw [if_neg hc, if_neg hc]; exact lt_of_le_of_ne h hc

lemma elo_eq {lo hi : ℚ} (h : lo < hi) : elo lo hi = lo := if_neg (ne_of_lt h)

lemma ehi_eq {lo hi : ℚ} (h : lo < hi) : ehi lo hi = hi := if_neg (ne_of_lt h)

lemma mem_eff_range {l : List ℚ} {x : ℚ} (h : x ∈ l) :
    elo (listMin l) (listMax l) ≤ x ∧ x ≤ ehi (listMin l) (listMax l) := by
  have h1 := listMin_le h
  have h2 := le_listMax h
  unfold elo ehi
  by_cases hc : listMin l = listMax l
  · rw [if_pos hc, if_pos hc]; constructor <;> linarith
  · rw [if_neg hc, if_neg hc]; exact ⟨h1, h2⟩

lemma histCenters_spacing (lo hi : ℚ) (n : ℕ) :
    histCenters lo hi n 1 - histCenters lo hi n 0 = binWidth lo hi n := by
  unfold histCenters edges binWidth
  push_cast
  ring

lemma div_div_cancel_common (a b c : ℚ) (hc : c ≠ 0) : (a / c) / (b / c) = a / b := by
  rw [div_eq_mul_inv (a / c), inv_div, div_mul_div_comm, mul_comm c b, mul_div_mul_right a b hc]

lemma edge_le_iff {lo hi : ℚ} (hlh : lo < hi) {n : ℕ} (hn : 0 < n) (x : ℚ) (i : ℕ) :
    edges lo hi n i ≤ x ↔ (i : ℚ) ≤ (x - lo) * n / (hi - lo) := by
  have hn' : (0 : ℚ) < n := by exact_mod_cast hn
  have hd : (0 : ℚ) < hi - lo := sub_pos.mpr hlh
  unfold edges
  rw [le_div_iff hd]
  constructor
  · intro h
    have h1 : (hi - lo) * i / n ≤ x - lo := by linarith
    have h2 : (hi - lo) * i ≤ (x - lo) * n := by
      have := (div_le_iff hn').mp h1
      linarith
    nlinarith
  · intro h
    have h1 : (hi - lo) * i ≤ (x - lo) * n := by nlinarith
    have h2 : (hi - lo) * i / n ≤ x - lo := (div_le_iff hn').mpr h1
    linarith

lemma lt_edge_iff {lo hi : ℚ} (hlh : lo < hi) {n : ℕ} (hn : 0 < n) (x : ℚ) (i : ℕ) :
    x < edges lo hi n i ↔ (x - lo) * n / (hi - lo) < (i : ℚ) := by
  rw [← not_le, ← not_le, not_iff_not]
  exact edge_le_iff hlh hn x i

lemma memBin_mem_range {lo hi : ℚ} (hlh : lo < hi) {n i : ℕ} (hn : 0 < n) (hin : i < n)
    {x : ℚ} (hm : memBin lo hi n i x) : lo ≤ x ∧ x ≤ hi := by
  have hn' : (0 : ℚ) < n := by exact_mod_cast hn
  obtain ⟨h1, h2, h3⟩ := hm
  constructor
  · have h0 : (0 : ℚ) ≤ (hi - lo) * i / n :=
      div_nonneg (mul_nonneg (by linarith) (Nat.cast_nonneg i)) (le_of_lt hn')
    unfold edges at h1
    linarith
  · by_cases hl : i + 1 = n
    · exact h2 hl
    · have hx := h3 hl
      have hc : ((i : ℚ) + 1) ≤ n := by exact_mod_cast hin
      have he : edges lo hi n (i + 1) ≤ hi := by
        unfold edges
        have hm1 : (hi - lo) * (((i : ℚ)) + 1) ≤ (hi - lo) * n :=
          mul_le_mul_of_nonneg_left hc (by linarith)
        have hm2 : (hi - lo) * (↑(i + 1)) / ↑n ≤ (hi - lo) * ↑n / ↑n := by
          apply (div_le_div_right hn').mpr
          push_cast
          exact hm1
        have hm3 : (hi - lo) * (n : ℚ) / n = hi - lo := by
          field_simp
        linarith [hm2, hm3.le]
      linarith

lemma memBin_iff_binIdx {lo hi : ℚ} (hlh : lo < hi) {n : ℕ} (hn : 0 < n) {x : ℚ}
    (hx1 : lo ≤ x) (hx2 : x ≤ hi) {i : ℕ} (hin : i < n) :
    memBin lo hi n i x ↔ i = binIdx lo hi n x := by
  have hn' : (0 : ℚ) < n := by exact_mod_cast hn
  have hd : (0 : ℚ) < hi - lo := sub_pos.mpr hlh
  set t := (x - lo) * n / (hi - lo) with hT
  have ht0 : 0 ≤ t := div_nonneg (mul_nonneg (by linarith) (le_of_lt hn')) (le_of_lt hd)
  by_cases hlast : i + 1 = n
  · constructor
    · rintro ⟨h1, _, _⟩
      have hle : (i : ℚ) ≤ t := (edge_le_iff hlh hn x i).mp h1
      have hfl : i ≤ Nat.floor t := Nat.le_floor hle
      unfold binIdx
      rw [← hT]
      omega
    · intro hEq
      have hfl : i ≤ Nat.floor t := by
        unfold binIdx at hEq
        rw [← hT] at hEq
        omega
      have hle : (i : ℚ) ≤ t := le_trans (by exact_mod_cast hfl) (Nat.floor_le ht0)
      exact ⟨(edge_le_iff hlh hn x i).mpr hle, fun _ => hx2, fun h => absurd hlast h⟩
  · have hlt : i + 1 < n := by omega
    constructor
    · rintro ⟨h1, _, h3⟩
      have hup : t < ((i + 1 : ℕ) : ℚ) := (lt_edge_iff hlh hn x (i + 1)).mp (h3 hlast)
      have hle : (i : ℚ) ≤ t := (edge_le_iff hlh hn x i).mp h1
      have hfl : Nat.floor t = i := by
        rw [Nat.floor_eq_iff ht0]
        refine ⟨hle, ?_⟩
        exact_mod_cast hup
      unfold binIdx
      rw [← hT]
      omega
    · intro hEq
      have hfl : Nat.floor t = i := by
        unfold binIdx at hEq
        rw [← hT] at hEq
        omega
      have hle : (i : ℚ) ≤ t := by rw [← hfl]; exact Nat.floor_le ht0
      have hup : t < (i : ℚ) + 1 := by rw [← hfl]; exact Nat.lt_floor_add_one t
      refine ⟨(edge_le_iff hlh hn x i).mpr hle, fun h => absurd h hlast, fun _ => ?_⟩
      rw [lt_edge_iff hlh hn x (i + 1)]
      push_cast
      exact hup

lemma binIdx_lt {lo hi : ℚ} {n : ℕ} (hn : 0 < n) (x : ℚ) : binIdx lo hi n x < n := by
  unfold binIdx
  omega

lemma sum_ite_memBin {lo hi : ℚ} (hlh : lo < hi) {n : ℕ} (hn : 0 < n) (x : ℚ) :
    Finset.sum (Finset.range n) (fun i => if memBin lo hi n i x then (1 : ℕ) else 0)
      = if lo ≤ x ∧ x ≤ hi then 1 else 0 := by
  by_cases hx : lo ≤ x ∧ x ≤ hi
  · rw [if_pos hx]
    have h1 : Finset.sum (Finset.range n) (fun i => if memBin lo hi n i x then (1 : ℕ) else 0)
        = Finset.sum (Finset.range n) (fun i => if i = binIdx lo hi n x then (1 : ℕ) else 0) := by
      refine Finset.sum_congr rfl (fun i him => ?_)
      have hin : i < n := Finset.mem_range.mp him
      exact if_congr (memBin_iff_binIdx hlh hn hx.1 hx.2 hin) rfl rfl
    rw [h1, Finset.sum_ite_eq' (Finset.range n) (binIdx lo hi n x) (fun _ => (1 : ℕ))]
    rw [if_pos (Finset.mem_range.mpr (binIdx_lt hn x))]
  · rw [if_neg hx]
    refine Finset.sum_eq_zero (fun i him => ?_)
    rw [if_neg]
    intro hm
    exact hx (memBin_mem_range hlh hn (Finset.mem_range.mp him) hm)

lemma total1_eq_inRange {lo hi : ℚ} (hlh : lo < hi) {n : ℕ} (hn : 0 < n) (l : List ℚ) :
    total1 l lo hi n = l.countP (fun x => decide (lo ≤ x ∧ x ≤ hi)) := by
  unfold total1
  induction l with
  | nil => simp [count1]
  | cons x xs ih =>
      simp only [count1, List.countP_cons] at *
      rw [Finset.sum_add_distrib, ih]
      have := sum_ite_memBin hlh hn x
      simp only [decide_eq_true_eq]
      omega

lemma sum_ite_memBin2 {lox hix loy hiy : ℚ} (hx : lox < hix) (hy : loy < hiy)
    {n : ℕ} (hn : 0 < n) (p : ℚ × ℚ) :
    Finset.sum (Finset.range n) (fun i => Finset.sum (Finset.range n)
        (fun j => if memBin lox hix n i p.1 ∧ memBin loy hiy n j p.2 then (1 : ℕ) else 0))
      = if (lox ≤ p.1 ∧ p.1 ≤ hix) ∧ (loy ≤ p.2 ∧ p.2 ≤ hiy) then 1 else 0 := by
  have h1 : ∀ i, Finset.sum (Finset.range n)
      (fun j => if memBin lox hix n i p.1 ∧ memBin loy hiy n j p.2 then (1 : ℕ) else 0)
      = (if memBin lox hix n i p.1 then (1 : ℕ) else 0) *
          (if loy ≤ p.2 ∧ p.2 ≤ hiy then 1 else 0) := by
    intro i
    by_cases hA : memBin lox hix n i p.1
    · simp only [hA, true_and, if_true, one_mul]
      exact sum_ite_memBin hy hn p.2
    · simp [hA]
  rw [Finset.sum_congr rfl (fun i _ => h1 i), ← Finset.sum_mul, sum_ite_memBin hx hn p.1]
  by_cases hX : lox ≤ p.1 ∧ p.1 ≤ hix <;> by_cases hY : loy ≤ p.2 ∧ p.2 ≤ hiy <;>
    simp [hX, hY]

lemma total2_eq_inRange {lox hix loy hiy : ℚ} (hx : lox < hix) (hy : loy < hiy)
    {n : ℕ} (hn : 0 < n) (l : List (ℚ × ℚ)) :
    total2 l lox hix loy hiy n
      = l.countP (fun p => decide ((lox ≤ p.1 ∧ p.1 ≤ hix) ∧ (loy ≤ p.2 ∧ p.2 ≤ hiy))) := by
  unfold total2
  induction l with
  | nil => simp [count2]
  | cons p ps ih =>
      simp only [count2, List.countP_cons] at *
      have hsplit : ∀ i : ℕ, Finset.sum (Finset.range n) (fun j =>
            ps.countP (fun q => decide (memBin lox hix n i q.1 ∧ memBin loy hiy n j q.2))
              + if memBin lox hix n i p.1 ∧ memBin loy hiy n j p.2 then 1 else 0)
          = Finset.sum (Finset.range n) (fun j =>
              ps.countP (fun q => decide (memBin lox hix n i q.1 ∧ memBin loy hiy n j q.2)))
            + Finset.sum (Finset.range n) (fun j =>
                if memBin lox hix n i p.1 ∧ memBin loy hiy n j p.2 then 1 else 0) :=
        fun i => Finset.sum_add_distrib
      simp only [decide_eq_true_eq]
      rw [Finset.sum_congr rfl (fun i _ => hsplit i), Finset.sum_add_distrib, ih]
      have := sum_ite_memBin2 hx hy hn p
      omega

lemma scale_cancel_yx (S T wx wy : ℚ) (hw : wx * wy ≠ 0) :
    S / (T * wx * wy) * wy * wx = S / T := by
  have h : S / (T * wx * wy) * wy * wx = S * (wx * wy) / (T * (wx * wy)) := by ring
  rw [h, mul_div_mul_right _ _ hw]

lemma scale_cancel_xy (S T wx wy : ℚ) (hw : wx * wy ≠ 0) :
    S / (T * wx * wy) * wx * wy = S / T := by
  have h : S / (T * wx * wy) * wx * wy = S * (wx * wy) / (T * (wx * wy)) := by ring
  rw [h, mul_div_mul_right _ _ hw]

lemma div_scale_cancel_w (S T wx wy : ℚ) (hwy : wy ≠ 0) :
    S / (T * wx * wy) * wy = S / (T * wx) := by
  have h : S / (T * wx * wy) * wy = S * wy / (T * wx * wy) := by ring
  rw [h, mul_div_mul_right _ _ hwy]

lemma count2_eq_zero_of_total2 {l : List (ℚ × ℚ)} {lox hix loy hiy : ℚ} {n : ℕ}
    (hT : total2 l lox hix loy hiy n = 0) {i j : ℕ} (hi : i < n) (hj : j < n) :
    count2 l lox hix loy hiy n i j = 0 := by
  unfold total2 at hT
  have h1 := Finset.sum_eq_zero_iff.mp hT i (Finset.mem_range.mpr hi)
  exact Finset.sum_eq_zero_iff.mp h1 j (Finset.mem_range.mpr hj)

lemma moment_scale (n : ℕ) (phiv cnt : ℕ → ℚ) (T wx wy : ℚ) (hwy : wy ≠ 0) :
    (Finset.sum (Finset.range n) (fun j => phiv j * (cnt j / (T * wx * wy)))) * wy
      = (Finset.sum (Finset.range n) (fun j => phiv j * cnt j)) / (T * wx) := by
  have h1 : ∀ j, phiv j * (cnt j / (T * wx * wy)) = (phiv j * cnt j) / (T * wx * wy) :=
    fun j => (mul_div_assoc _ _ _).symm
  rw [Finset.sum_congr rfl (fun j _ => h1 j), ← Finset.sum_div, div_mul_eq_mul_div,
    mul_div_mul_right _ _ hwy]

lemma binWidth_pos {lo hi : ℚ} (h : lo < hi) {n : ℕ} (hn : 0 < n) :
    0 < binWidth lo hi n := by
  have hn' : (0 : ℚ) < n := by exact_mod_cast hn
  exact div_pos (sub_pos.mpr h) hn'

lemma interp_at_node : ∀ (l : List (ℚ × ℚ)), l.Pairwise (fun p q => p.1 < q.1) →
    ∀ p ∈ l, interp p.1 l = p.2 := by
  intro l
  induction l with
  | nil => intro _ p hp; cases hp
  | cons hd tl ih =>
      intro hpw p hp
      cases tl with
      | nil =>
          rcases List.mem_cons.mp hp with h | h
          · subst h; rfl
          · cases h
      | cons q rest =>
          have hhead := (List.pairwise_cons.mp hpw).1
          have hpw' := (List.pairwise_cons.mp hpw).2
          rcases List.mem_cons.mp hp with h | hp'
          · subst h
            show interp p.1 (p :: q :: rest) = p.2
            simp [interp]
          · have hhd : hd.1 < p.1 := hhead p hp'
            show interp p.1 (hd :: q :: rest) = p.2
            rw [show interp p.1 (hd :: q :: rest)
                = if p.1 ≤ hd.1 then hd.2
                  else if p.1 ≤ q.1 then hd.2 + (q.2 - hd.2) * (p.1 - hd.1) / (q.1 - hd.1)
                  else interp p.1 (q :: rest) from rfl]
            rw [if_neg (not_le.mpr hhd)]
            rcases List.mem_cons.mp hp' with h | hp''
            · subst h
              have hne : p.1 - hd.1 ≠ 0 := sub_ne_zero.mpr (ne_of_gt hhd)
              rw [if_pos le_rfl, mul_div_assoc, div_self hne, mul_one]
              ring
            · have hq : q.1 < p.1 := (List.pairwise_cons.mp hpw').1 p hp''
              rw [if_neg (not_le.mpr hq)]
              exact ih hpw' p hp'

lemma pairwise_zip_fst {zs vs : List ℚ} (h : zs.Pairwise (fun a b => a < b))
    (hlen : zs.length = vs.length) :
    (zs.zip vs).Pairwise (fun p q : ℚ × ℚ => p.1 < q.1) := by
  have hmap : (zs.zip vs).map Prod.fst = zs := List.map_fst_zip zs vs (le_of_eq hlen)
  have h2 : ((zs.zip vs).map Prod.fst).Pairwise (fun a b => a < b) := by rw [hmap]; exact h
  exact (List.pairwise_map).mp h2

/-- Count-level characterization of the Expectation operation: it is the
unnormalized conditional moment, the sum of gradient bin centers weighted
by the counts of the row of the joint histogram built over the state
range (min y, max y), divided by total count times state bin width only
(no division by the marginal density of the row). -/
lemma Expectation_counts (Y dY y : List ℚ) (n : ℕ) (hn : 0 < n)
    (hy : listMin y < listMax y) (i : ℕ) :
    Expectation Y dY y n i
      = (Finset.sum (Finset.range n) (fun j =>
            histCenters (elo (listMin dY) (listMax dY)) (ehi (listMin dY) (listMax dY)) n j
              * (count2 (Y.zip dY) (listMin y) (listMax y)
                  (elo (listMin dY) (listMax dY)) (ehi (listMin dY) (listMax dY)) n i j : ℚ)))
        / ((total2 (Y.zip dY) (listMin y) (listMax y)
              (elo (listMin dY) (listMax dY)) (ehi (listMin dY) (listMax dY)) n : ℚ)
            * binWidth (listMin y) (listMax y) n) := by
  have hwy : binWidth (elo (listMin dY) (listMax dY)) (ehi (listMin dY) (listMax dY)) n ≠ 0 :=
    ne_of_gt (binWidth_pos (elo_lt_ehi (listMin_le_listMax dY)) hn)
  show (Finset.sum (Finset.range n) (fun j =>
      histCenters (elo (listMin dY) (listMax dY)) (ehi (listMin dY) (listMax dY)) n j
        * npHistogram2d Y dY (listMin y) (listMax y) (listMin dY) (listMax dY) n i j))
      * (histCenters (elo (listMin dY) (listMax dY)) (ehi (listMin dY) (listMax dY)) n 1
          - histCenters (elo (listMin dY) (listMax dY)) (ehi (listMin dY) (listMax dY)) n 0)
    = _
  rw [histCenters_spacing]
  unfold npHistogram2d
  rw [elo_eq hy, ehi_eq hy]
  unfold dens2
  exact moment_scale n _ _ _ _ _ hwy

lemma outGrid_getD (dz : ℚ) (j : ℕ) (h : j < (outGrid dz).length) :
    (outGrid dz).getD j 0 = (j : ℚ) * dz := by
  unfold outGrid at h ⊢
  rw [List.getD_eq_getElem _ _ h, List.getElem_map, List.getElem_range]

lemma resample_getD (zs vs : List ℚ) (j : ℕ) (h : j < (outGrid (chebStep zs)).length) :
    (resample zs vs).getD j 0 = interp ((outGrid (chebStep zs)).getD j 0) (zs.zip vs) := by
  unfold resample
  have h2 : j < ((outGrid (chebStep zs)).map (fun t => interp t (zs.zip vs))).length := by
    simpa using h
  rw [List.getD_eq_getElem _ _ h2, List.getElem_map, List.getD_eq_getElem _ _ h]

lemma total2_eq_stateRange (X D : List ℚ) (lo hi : ℚ) (n : ℕ) (hlh : lo < hi) (hn : 0 < n) :
    total2 (X.zip D) lo hi (elo (listMin D) (listMax D)) (ehi (listMin D) (listMax D)) n
      = (X.zip D).countP (fun p => decide (lo ≤ p.1 ∧ p.1 ≤ hi)) := by
  rw [total2_eq_inRange hlh (elo_lt_ehi (listMin_le_listMax D)) hn]
  refine List.countP_congr (fun p hp => ?_)
  obtain ⟨a, b⟩ := p
  have hm := mem_eff_range (List.of_mem_zip hp).2
  simp only [decide_eq_true_eq]
  constructor
  · rintro ⟨h1, _⟩
    exact h1
  · intro h1
    exact ⟨h1, hm⟩

lemma neg_moment_ratio (n : ℕ) (phiv : ℕ → ℚ) (cnt : ℕ → ℕ) (T : ℕ) (wx wy : ℚ)
    (hwx : wx ≠ 0) (hwy : wy ≠ 0) (hT0 : T = 0 → ∀ j ∈ Finset.range n, cnt j = 0) :
    -(((Finset.sum (Finset.range n) (fun j => phiv j * ((cnt j : ℚ) / ((T : ℚ) * wx * wy)))) * wy)
        / ((Finset.sum (Finset.range n) (fun j => (cnt j : ℚ) / ((T : ℚ) * wx * wy))) * wy))
      = -((Finset.sum (Finset.range n) (fun j => phiv j * (cnt j : ℚ)))
          / (Finset.sum (Finset.range n) (fun j => (cnt j : ℚ)))) := by
  rw [moment_scale n _ _ _ _ _ hwy, ← Finset.sum_div, div_scale_cancel_w _ _ _ _ hwy]
  rcases eq_or_ne T 0 with hT | hT
  · have hc : ∀ j ∈ Finset.range n, (cnt j : ℚ) = 0 := fun j hj => by
      rw [hT0 hT j hj]
      norm_num
    rw [Finset.sum_eq_zero (fun j hj => by rw [hc j hj, mul_zero]), Finset.sum_eq_zero hc]
    simp
  · have hTwx : (T : ℚ) * wx ≠ 0 := mul_ne_zero (Nat.cast_ne_zero.mpr hT) hwx
    rw [div_div_cancel_common _ _ _ hTwx]

section MainResults
attribute [local semireducible] Rat.add Rat.mul Rat.inv Rat.sub

/-- C3 counterexample: for the sample set [5], the range (0, 1) and one
bin, no sample lies in the range, so numpy's density normalization
divides by a zero total and the densities do not sum (times bin width)
to 1: the claim fails as universally stated. -/
theorem density_sum_cex :
    ¬ (Finset.sum (Finset.range 1)
        (fun i => npHistogram [5] 0 1 1 i * binWidth 0 1 1) = 1) := by
  decide

/-- C3 (amended): for every sample set, non-degenerate range lo < hi and
bin count n ≥ 1, provided at least one sample lies within the range, the
histogram densities times the bin width sum to exactly 1, and samples
outside the range belong to no bin (excluded, not clipped). -/
theorem density_sums_to_one (l : List ℚ) (lo hi : ℚ) (n : ℕ)
    (hlh : lo < hi) (hn : 0 < n)
    (hex : 0 < l.countP (fun x => decide (lo ≤ x ∧ x ≤ hi))) :
    Finset.sum (Finset.range n) (fun i => npHistogram l lo hi n i * binWidth lo hi n) = 1
    ∧ ∀ (x : ℚ) (i : ℕ), i < n → ¬ (lo ≤ x ∧ x ≤ hi) → ¬ memBin lo hi n i x := by
  have hT : 0 < total1 l lo hi n := by
    rw [total1_eq_inRange hlh hn]
    exact hex
  have hTQ : ((total1 l lo hi n : ℕ) : ℚ) ≠ 0 :=
    ne_of_gt (by exact_mod_cast hT)
  have hw : binWidth lo hi n ≠ 0 := ne_of_gt (binWidth_pos hlh hn)
  constructor
  · unfold npHistogram
    rw [elo_eq hlh, ehi_eq hlh]
    unfold dens1
    have hterm : ∀ i : ℕ,
        (count1 l lo hi n i : ℚ) / ((total1 l lo hi n : ℚ) * binWidth lo hi n)
            * binWidth lo hi n
          = (count1 l lo hi n i : ℚ) / (total1 l lo hi n : ℚ) := by
      intro i
      have h : (count1 l lo hi n i : ℚ) / ((total1 l lo hi n : ℚ) * binWidth lo hi n)
            * binWidth lo hi n
          = (count1 l lo hi n i : ℚ) * binWidth lo hi n
              / ((total1 l lo hi n : ℚ) * binWidth lo hi n) := by
        ring
      rw [h, mul_div_mul_right _ _ hw]
    rw [Finset.sum_congr rfl (fun i _ => hterm i), ← Finset.sum_div]
    have hcast : Finset.sum (Finset.range n) (fun i => (count1 l lo hi n i : ℚ))
        = ((total1 l lo hi n : ℕ) : ℚ) := by
      unfold total1
      exact (Nat.cast_sum _ _).symm
    rw [hcast, div_self hTQ]
  · intro x i hin hx hm
    exact hx (memBin_mem_range hlh hn hin hm)

/-- C3 witness: the amended theorem evaluated on a concrete histogram. -/
theorem density_sums_to_one_at :
    Finset.sum (Finset.range 2)
      (fun i => npHistogram [0, 1/2, 1, 3/2, 2] 0 2 2 i * binWidth 0 2 2) = 1 :=
  (density_sums_to_one [0, 1/2, 1, 3/2, 2] 0 2 2 (by norm_num) (by norm_num) (by decide)).1

/-- C7 counterexample: a joint histogram whose only sample pair lies
outside the 2D range has zero total mass, so its marginals do not sum to
1: the claim fails as universally stated. -/
theorem joint_marginal_cex :
    ¬ (Finset.sum (Finset.range 1) (fun i =>
        (Finset.sum (Finset.range 1) (fun j => npHistogram2d [5] [5] 0 1 0 1 1 i j))
          * binWidth 0 1 1 * binWidth 0 1 1) = 1) := by
  decide

/-- C7 (amended): for every joint histogram over non-degenerate ranges
with at least one sample pair inside the 2D range, summing the density
surface over either axis weighted by that axis's bin width gives a
univariate density whose values times the remaining bin width sum to 1. -/
theorem joint_marginals_sum_to_one (X Y : List ℚ) (lox hix loy hiy : ℚ) (n : ℕ)
    (hx : lox < hix) (hy : loy < hiy) (hn : 0 < n)
    (hex : 0 < (X.zip Y).countP
        (fun p => decide ((lox ≤ p.1 ∧ p.1 ≤ hix) ∧ (loy ≤ p.2 ∧ p.2 ≤ hiy)))) :
    Finset.sum (Finset.range n) (fun i =>
        (Finset.sum (Finset.range n) (fun j => npHistogram2d X Y lox hix loy hiy n i j))
          * binWidth loy hiy n * binWidth lox hix n) = 1
    ∧ Finset.sum (Finset.range n) (fun j =>
        (Finset.sum (Finset.range n) (fun i => npHistogram2d X Y lox hix loy hiy n i j))
          * binWidth lox hix n * binWidth loy hiy n) = 1 := by
  have hT : 0 < total2 (X.zip Y) lox hix loy hiy n := by
    rw [total2_eq_inRange hx hy hn]
    exact hex
  have hTQ : ((total2 (X.zip Y) lox hix loy hiy n : ℕ) : ℚ) ≠ 0 :=
    ne_of_gt (by exact_mod_cast hT)
  have hw : binWidth lox hix n * binWidth loy hiy n ≠ 0 :=
    mul_ne_zero (ne_of_gt (binWidth_pos hx hn)) (ne_of_gt (binWidth_pos hy hn))
  have hcast : Finset.sum (Finset.range n) (fun i => Finset.sum (Finset.range n)
        (fun j => (count2 (X.zip Y) lox hix loy hiy n i j : ℚ)))
      = ((total2 (X.zip Y) lox hix loy hiy n : ℕ) : ℚ) := by
    unfold total2
    rw [Nat.cast_sum]
    exact Finset.sum_congr rfl (fun i _ => (Nat.cast_sum _ _).symm)
  constructor
  · unfold npHistogram2d
    rw [elo_eq hx, ehi_eq hx, elo_eq hy, ehi_eq hy]
    unfold dens2
    have hterm : ∀ i : ℕ,
        (Finset.sum (Finset.range n) (fun j => (count2 (X.zip Y) lox hix loy hiy n i j : ℚ)
            / ((total2 (X.zip Y) lox hix loy hiy n : ℚ) * binWidth lox hix n * binWidth loy hiy n)))
          * binWidth loy hiy n * binWidth lox hix n
        = (Finset.sum (Finset.range n) (fun j => (count2 (X.zip Y) lox hix loy hiy n i j : ℚ)))
            / (total2 (X.zip Y) lox hix loy hiy n : ℚ) := by
      intro i
      rw [← Finset.sum_div]
      exact scale_cancel_yx _ _ _ _ hw
    rw [Finset.sum_congr rfl (fun i _ => hterm i), ← Finset.sum_div, hcast, div_self hTQ]
  · unfold npHistogram2d
    rw [elo_eq hx, ehi_eq hx, elo_eq hy, ehi_eq hy]
    unfold dens2
    have hterm : ∀ j : ℕ,
        (Finset.sum (Finset.range n) (fun i => (count2 (X.zip Y) lox hix loy hiy n i j : ℚ)
            / ((total2 (X.zip Y) lox hix loy hiy n : ℚ) * binWidth lox hix n * binWidth loy hiy n)))
          * binWidth lox hix n * binWidth loy hiy n
        = (Finset.sum (Finset.range n) (fun i => (count2 (X.zip Y) lox hix loy hiy n i j : ℚ)))
            / (total2 (X.zip Y) lox hix loy hiy n : ℚ) := by
      intro j
      rw [← Finset.sum_div]
      exact scale_cancel_xy _ _ _ _ hw
    rw [Finset.sum_congr rfl (fun j _ => hterm j), ← Finset.sum_div, Finset.sum_comm, hcast,
      div_self hTQ]

/-- C7 witness: the amended theorem evaluated on a concrete joint
histogram. -/
theorem joint_marginals_sum_to_one_at :
    Finset.sum (Finset.range 1) (fun i =>
        (Finset.sum (Finset.range 1) (fun j => npHistogram2d [1/2] [1/2] 0 1 0 1 1 i j))
          * binWidth 0 1 1 * binWidth 0 1 1) = 1 :=
  (joint_marginals_sum_to_one [1/2] [1/2] 0 1 0 1 1 (by norm_num) (by norm_num) (by norm_num)
    (by decide)).1

/-- C4 (confirmed): at every bin center index the diffusion operation
returns minus the conditional expectation whose numerator (first
conditional moment) and denominator (Y-marginal) both come from the very
same joint histogram: first stated with the normalized density surface
exactly as the source computes it, then characterized at the level of
the shared raw bin counts. -/
theorem diffusion_is_neg_conditional_mean (dY2 Ydata : List ℚ) (lo hi : ℚ) (n : ℕ)
    (hlh : lo < hi) (hn2 : 2 ≤ n) (hlen : Ydata.length = dY2.length) :
    ∀ i, i < n →
      (diffusion dY2 Ydata lo hi n i
        = -(((Finset.sum (Finset.range n) (fun j =>
              histCenters (elo (listMin dY2) (listMax dY2)) (ehi (listMin dY2) (listMax dY2)) n j
                * npHistogram2d Ydata dY2 lo hi (listMin dY2) (listMax dY2) n i j))
              * (histCenters (elo (listMin dY2) (listMax dY2)) (ehi (listMin dY2) (listMax dY2)) n 1
                  - histCenters (elo (listMin dY2) (listMax dY2)) (ehi (listMin dY2) (listMax dY2)) n 0))
            / ((Finset.sum (Finset.range n) (fun j =>
                  npHistogram2d Ydata dY2 lo hi (listMin dY2) (listMax dY2) n i j))
              * (histCenters (elo (listMin dY2) (listMax dY2)) (ehi (listMin dY2) (listMax dY2)) n 1
                  - histCenters (elo (listMin dY2) (listMax dY2)) (ehi (listMin dY2) (listMax dY2)) n 0))))
      ∧ diffusion dY2 Ydata lo hi n i
        = -((Finset.sum (Finset.range n) (fun j =>
              histCenters (elo (listMin dY2) (listMax dY2)) (ehi (listMin dY2) (listMax dY2)) n j
                * (count2 (Ydata.zip dY2) lo hi (elo (listMin dY2) (listMax dY2))
                    (ehi (listMin dY2) (listMax dY2)) n i j : ℚ)))
            / (Finset.sum (Finset.range n) (fun j =>
                (count2 (Ydata.zip dY2) lo hi (elo (listMin dY2) (listMax dY2))
                    (ehi (listMin dY2) (listMax dY2)) n i j : ℚ)))) := by
  intro i hin
  have hn : 0 < n := by omega
  have hwy : binWidth (elo (listMin dY2) (listMax dY2)) (ehi (listMin dY2) (listMax dY2)) n ≠ 0 :=
    ne_of_gt (binWidth_pos (elo_lt_ehi (listMin_le_listMax dY2)) hn)
  have hwx : binWidth lo hi n ≠ 0 := ne_of_gt (binWidth_pos hlh hn)
  refine ⟨rfl, ?_⟩
  show -(((Finset.sum (Finset.range n) (fun j =>
      histCenters (elo (listMin dY2) (listMax dY2)) (ehi (listMin dY2) (listMax dY2)) n j
        * dens2 (Ydata.zip dY2) (elo lo hi) (ehi lo hi) (elo (listMin dY2) (listMax dY2))
            (ehi (listMin dY2) (listMax dY2)) n i j))
      * (histCenters (elo (listMin dY2) (listMax dY2)) (ehi (listMin dY2) (listMax dY2)) n 1
          - histCenters (elo (listMin dY2) (listMax dY2)) (ehi (listMin dY2) (listMax dY2)) n 0))
    / ((Finset.sum (Finset.range n) (fun j =>
        dens2 (Ydata.zip dY2) (elo lo hi) (ehi lo hi) (elo (listMin dY2) (listMax dY2))
            (ehi (listMin dY2) (listMax dY2)) n i j))
      * (histCenters (elo (listMin dY2) (listMax dY2)) (ehi (listMin dY2) (listMax dY2)) n 1
          - histCenters (elo (listMin dY2) (listMax dY2)) (ehi (listMin dY2) (listMax dY2)) n 0)))
    = _
  rw [elo_eq hlh, ehi_eq hlh, histCenters_spacing]
  unfold dens2
  exact neg_moment_ratio n
    (histCenters (elo (listMin dY2) (listMax dY2)) (ehi (listMin dY2) (listMax dY2)) n)
    (fun j => count2 (Ydata.zip dY2) lo hi (elo (listMin dY2) (listMax dY2))
        (ehi (listMin dY2) (listMax dY2)) n i j)
    (total2 (Ydata.zip dY2) lo hi (elo (listMin dY2) (listMax dY2))
        (ehi (listMin dY2) (listMax dY2)) n)
    (binWidth lo hi n)
    (binWidth (elo (listMin dY2) (listMax dY2)) (ehi (listMin dY2) (listMax dY2)) n)
    hwx hwy
    (fun hT j hj => count2_eq_zero_of_total2 hT hin (Finset.mem_range.mp hj))

/-- C4 witness: the theorem evaluated on a concrete ensemble. -/
theorem diffusion_is_neg_conditional_mean_at :
    diffusion [0, 1] [0, 1] 0 1 2 0 = -(1/4) := by
  have h := diffusion_is_neg_conditional_mean [0, 1] [0, 1] 0 1 2 (by norm_num) (by norm_num)
    rfl 0 (by norm_num)
  rw [h.2]
  decide

/-- C1 counterexample: at a concrete marginal density f with bin centers
y and concrete boundary data sets, the drift operation returns a value
different from the spec formula (conditional expectations from joint
histograms whose y bins are identical to those of f, each divided by its
own marginal): drift gives -5/4 while the spec formula gives 5/2. -/
theorem drift_cex :
    drift (npHistogram [0, 1/2, 1, 3/2, 2] 0 2 2) (densityCenters 0 2 2)
        [1/2, 3/2] [1/4, 3/2] [0, 2] [1, 3] 2 0
      ≠ driftSpec (npHistogram [0, 1/2, 1, 3/2, 2] 0 2 2) 0 2
        [1/2, 3/2] [1/4, 3/2] [0, 2] [1, 3] 2 0 := by
  decide

/-- C1 (amended): drift returns, at each index, the difference of the two
boundary terms divided by f, where each boundary term is the
*unnormalized* conditional moment E[Phi given Y]*f_b(y): the sum of
gradient bin centers weighted by the counts of the boundary joint
histogram, divided only by total count times state bin width (no
division by the boundary marginal); the boundary histograms' state axis
spans (min y, max y), the range of f's bin *centers*, which is narrower
than f's own range by one bin width, so their bins do not coincide with
f's bins. -/
theorem drift_unnormalized (f : ℕ → ℚ) (y Y0 Y1 Yz0 Yz1 : List ℚ) (n : ℕ)
    (hn : 0 < n) (hy : listMin y < listMax y) (i : ℕ) :
    drift f y Y0 Y1 Yz0 Yz1 n i
      = ((Finset.sum (Finset.range n) (fun j =>
            histCenters (elo (listMin Yz1) (listMax Yz1)) (ehi (listMin Yz1) (listMax Yz1)) n j
              * (count2 (Y1.zip Yz1) (listMin y) (listMax y)
                  (elo (listMin Yz1) (listMax Yz1)) (ehi (listMin Yz1) (listMax Yz1)) n i j : ℚ)))
          / ((total2 (Y1.zip Yz1) (listMin y) (listMax y)
                (elo (listMin Yz1) (listMax Yz1)) (ehi (listMin Yz1) (listMax Yz1)) n : ℚ)
              * binWidth (listMin y) (listMax y) n)
        - (Finset.sum (Finset.range n) (fun j =>
            histCenters (elo (listMin Yz0) (listMax Yz0)) (ehi (listMin Yz0) (listMax Yz0)) n j
              * (count2 (Y0.zip Yz0) (listMin y) (listMax y)
                  (elo (listMin Yz0) (listMax Yz0)) (ehi (listMin Yz0) (listMax Yz0)) n i j : ℚ)))
          / ((total2 (Y0.zip Yz0) (listMin y) (listMax y)
                (elo (listMin Yz0) (listMax Yz0)) (ehi (listMin Yz0) (listMax Yz0)) n : ℚ)
              * binWidth (listMin y) (listMax y) n)) / f i := by
  show (Expectation Y1 Yz1 y n i - Expectation Y0 Yz0 y n i) / f i = _
  rw [Expectation_counts Y1 Yz1 y n hn hy i, Expectation_counts Y0 Yz0 y n hn hy i]

/-- C1 witness: the amended theorem evaluated at the counterexample
input, pinning the value the implementation actually returns. -/
theorem drift_unnormalized_at :
    drift (npHistogram [0, 1/2, 1, 3/2, 2] 0 2 2) (densityCenters 0 2 2)
        [1/2, 3/2] [1/4, 3/2] [0, 2] [1, 3] 2 0 = -(5/4) := by
  have h := drift_unnormalized (npHistogram [0, 1/2, 1, 3/2, 2] 0 2 2) (densityCenters 0 2 2)
    [1/2, 3/2] [1/4, 3/2] [0, 2] [1, 3] 2 (by norm_num) (by decide) 0
  rw [h]
  decide

/-- C2 counterexample: for the three-point grid [0, 1, 2], applying the
derivative matrix to the constant vector 1 gives 1/2 at the first
entry, not 0: the first row of the matrix is not zero and the matrix
does not annihilate constants. -/
theorem Dmat_apply_const_cex :
    ¬ (Dapply [0, 1, 2] (fun _ => (1 : ℚ)) 0 = 0) := by
  decide

/-- C2 (amended): the matrix is tridiagonal with entries +1/(2 dy) above
and -1/(2 dy) below the diagonal and zero elsewhere, where dy is
y[1]-y[0]; interior rows sum to zero, but the first row sums to
+1/(2 dy) and the last row to -1/(2 dy) (the one-sided terms are kept,
not dropped); consequently applying it to a constant vector c gives zero
at every interior entry but c/(2 dy) at the first entry and -c/(2 dy) at
the last. -/
theorem Dmat_amended (y : List ℚ) (c : ℚ) (h3 : 3 ≤ y.length) :
    (∀ i j : ℕ, j ≠ i + 1 → j + 1 ≠ i → Dmat y i j = 0)
    ∧ (∀ i : ℕ, i + 1 < y.length → Dmat y i (i + 1) = 1 / 2 / (y.getD 1 0 - y.getD 0 0))
    ∧ (∀ j : ℕ, j + 1 < y.length → Dmat y (j + 1) j = -(1 / 2 / (y.getD 1 0 - y.getD 0 0)))
    ∧ (∀ i : ℕ, 0 < i → i + 1 < y.length →
        Finset.sum (Finset.range y.length) (fun j => Dmat y i j) = 0)
    ∧ Finset.sum (Finset.range y.length) (fun j => Dmat y 0 j)
        = 1 / 2 / (y.getD 1 0 - y.getD 0 0)
    ∧ Finset.sum (Finset.range y.length) (fun j => Dmat y (y.length - 1) j)
        = -(1 / 2 / (y.getD 1 0 - y.getD 0 0))
    ∧ (∀ i : ℕ, 0 < i → i + 1 < y.length → Dapply y (fun _ => c) i = 0)
    ∧ Dapply y (fun _ => c) 0 = c * (1 / 2 / (y.getD 1 0 - y.getD 0 0))
    ∧ Dapply y (fun _ => c) (y.length - 1) = -(c * (1 / 2 / (y.getD 1 0 - y.getD 0 0))) := by
  have hs0 : ∀ i j : ℕ, j ≠ i + 1 → j + 1 ≠ i → Dmat y i j = 0 := by
    intro i j h1 h2
    unfold Dmat
    rw [if_neg (fun h => h1 h.2), if_neg (fun h => h2 h.2), zero_mul]
  have hsup : ∀ i : ℕ, i + 1 < y.length →
      Dmat y i (i + 1) = 1 / 2 / (y.getD 1 0 - y.getD 0 0) := by
    intro i hi
    unfold Dmat
    rw [if_pos ⟨by omega, rfl⟩, one_mul]
  have hsub : ∀ j : ℕ, j + 1 < y.length →
      Dmat y (j + 1) j = -(1 / 2 / (y.getD 1 0 - y.getD 0 0)) := by
    intro j hj
    unfold Dmat
    rw [if_neg (fun h => absurd h.2 (by omega)), if_pos ⟨by omega, rfl⟩]
    exact neg_one_mul _
  have hrow : ∀ i : ℕ, 0 < i → i + 1 < y.length →
      Finset.sum (Finset.range y.length) (fun j => Dmat y i j) = 0 := by
    intro i h0 hi
    have hsplit : ∀ j : ℕ, Dmat y i j
        = (if j = i + 1 then 1 / 2 / (y.getD 1 0 - y.getD 0 0) else 0)
          + (if j = i - 1 then -(1 / 2 / (y.getD 1 0 - y.getD 0 0)) else 0) := by
      intro j
      by_cases h1 : j = i + 1
      · subst h1
        rw [hsup i hi, if_pos rfl, if_neg (by omega)]
        ring
      · by_cases h2 : j = i - 1
        · subst h2
          have hb := hsub (i - 1) (by omega)
          rw [show i - 1 + 1 = i from by omega] at hb
          rw [hb, if_neg (by omega), if_pos rfl]
          ring
        · rw [hs0 i j h1 (by omega), if_neg h1, if_neg h2]
          ring
    rw [Finset.sum_congr rfl (fun j _ => hsplit j), Finset.sum_add_distrib,
      Finset.sum_ite_eq' (Finset.range y.length) (i + 1)
        (fun _ => 1 / 2 / (y.getD 1 0 - y.getD 0 0)),
      Finset.sum_ite_eq' (Finset.range y.length) (i - 1)
        (fun _ => -(1 / 2 / (y.getD 1 0 - y.getD 0 0))),
      if_pos (Finset.mem_range.mpr (by omega)), if_pos (Finset.mem_range.mpr (by omega))]
    ring
  have hrow0 : Finset.sum (Finset.range y.length) (fun j => Dmat y 0 j)
      = 1 / 2 / (y.getD 1 0 - y.getD 0 0) := by
    have hsplit : ∀ j : ℕ, Dmat y 0 j
        = if j = 1 then 1 / 2 / (y.getD 1 0 - y.getD 0 0) else 0 := by
      intro j
      by_cases h1 : j = 1
      · subst h1
        rw [hsup 0 (by omega), if_pos rfl]
      · rw [hs0 0 j (by omega) (by omega), if_neg h1]
    rw [Finset.sum_congr rfl (fun j _ => hsplit j),
      Finset.sum_ite_eq' (Finset.range y.length) 1
        (fun _ => 1 / 2 / (y.getD 1 0 - y.getD 0 0)),
      if_pos (Finset.mem_range.mpr (by omega))]
  have hrowL : Finset.sum (Finset.range y.length) (fun j => Dmat y (y.length - 1) j)
      = -(1 / 2 / (y.getD 1 0 - y.getD 0 0)) := by
    have hsplit : ∀ j : ℕ, Dmat y (y.length - 1) j
        = if j = y.length - 2 then -(1 / 2 / (y.getD 1 0 - y.getD 0 0)) else 0 := by
      intro j
      by_cases h1 : j = y.length - 2
      · subst h1
        have hb := hsub (y.length - 2) (by omega)
        rw [show y.length - 2 + 1 = y.length - 1 from by omega] at hb
        rw [hb, if_pos rfl]
      · unfold Dmat
        rw [if_neg (fun h => absurd h.1 (by omega)), if_neg (fun h => h1 (by omega)),
          zero_mul, if_neg h1]
    rw [Finset.sum_congr rfl (fun j _ => hsplit j),
      Finset.sum_ite_eq' (Finset.range y.length) (y.length - 2)
        (fun _ => -(1 / 2 / (y.getD 1 0 - y.getD 0 0))),
      if_pos (Finset.mem_range.mpr (by omega))]
  have happ : ∀ i : ℕ, Dapply y (fun _ => c) i
      = (Finset.sum (Finset.range y.length) (fun j => Dmat y i j)) * c := by
    intro i
    unfold Dapply
    exact (Finset.sum_mul _ _ _).symm
  refine ⟨hs0, hsup, hsub, hrow, hrow0, hrowL, ?_, ?_, ?_⟩
  · intro i h0 hi
    rw [happ i, hrow i h0 hi, zero_mul]
  · rw [happ 0, hrow0]
    ring
  · rw [happ (y.length - 1), hrowL]
    ring

/-- C2 witness: the amended theorem evaluated on a concrete grid, at an
interior row. -/
theorem Dmat_amended_at : Dapply [0, 1, 3] (fun _ => (2 : ℚ)) 1 = 0 :=
  (Dmat_amended [0, 1, 3] 2 (by norm_num)).2.2.2.2.2.2.1 1 (by norm_num) (by norm_num)

/-- C5 (confirmed): the time-derivative stencil computes exactly the
4th-order combination divided by dt at every component, and on five
identical snapshots it returns the zero vector for any dt > 0. -/
theorem timeDeriv_formula_and_const (fp2 fp1 fm1 fm2 f : ℕ → ℚ) (dt : ℚ) (hdt : 0 < dt) :
    (∀ i, timeDeriv fp2 fp1 fm1 fm2 dt i
        = ((-1/12) * fp2 i + (2/3) * fp1 i - (2/3) * fm1 i + (1/12) * fm2 i) / dt)
    ∧ ∀ i, timeDeriv f f f f dt i = 0 := by
  refine ⟨fun i => rfl, fun i => ?_⟩
  show ((-1/12) * f i + (2/3) * f i - (2/3) * f i + (1/12) * f i) / dt = 0
  rw [show (-1/12) * f i + (2/3) * f i - (2/3) * f i + (1/12) * f i = 0 from by ring,
    zero_div]

/-- C5 witness: the stencil on five identical snapshots at dt = 1. -/
theorem timeDeriv_const_at :
    timeDeriv (fun _ => (3 : ℚ)) (fun _ => 3) (fun _ => 3) (fun _ => 3) 1 0 = 0 :=
  (timeDeriv_formula_and_const (fun _ => 3) (fun _ => 3) (fun _ => 3) (fun _ => 3)
    (fun _ => 3) 1 one_pos).2 0

/-- C6 (confirmed): the OU boundary step returns exactly
current + rate*(mean - current)*dt + volatility*sqrt(dt)*increment, the
sqrt(dt) scaling being applied inside; with rate = volatility = 0 it
returns the current value unchanged for any dt, mean and current value. -/
theorem OU_formula (Yt Wt dt mu a sig : ℝ) :
    OU Yt Wt dt mu a sig = Yt + a * (mu - Yt) * dt + sig * Real.sqrt dt * Wt
    ∧ OU Yt Wt dt mu 0 0 = Yt := by
  constructor
  · show Yt + a * (mu - Yt) * dt + sig * (Real.sqrt dt * Wt) = _
    ring
  · show Yt + 0 * (mu - Yt) * dt + 0 * (Real.sqrt dt * Wt) = Yt
    ring

/-- C8 counterexample: a strictly increasing native grid whose first
adjacent spacing (1/2) differs from its smallest adjacent spacing (1/8);
the resampler's output grid spacing equals the former, not the latter,
so the claim's spacing clause fails. -/
theorem resample_spacing_cex :
    List.Pairwise (fun a b : ℚ => a < b) [1/8, 5/8, 3/4, 7/8]
    ∧ (outGrid (chebStep [1/8, 5/8, 3/4, 7/8])).getD 1 0
        - (outGrid (chebStep [1/8, 5/8, 3/4, 7/8])).getD 0 0
      ≠ minAdjSpacing [1/8, 5/8, 3/4, 7/8] := by
  constructor
  · decide
  · decide

/-- C8 (amended): for a strictly increasing native grid with matching
values, the resampler's output grid is uniform with spacing equal to the
spacing between the *first two* native grid points (z[1]-z[0], not the
smallest adjacent spacing); interpolation is linear and reproduces the
original value exactly at every native grid point, in particular at
every output grid point that coincides with a native one. -/
theorem resample_uniform_and_exact (zs vs : List ℚ)
    (hsort : zs.Pairwise (fun a b => a < b)) (hlen : zs.length = vs.length) :
    (∀ j : ℕ, j + 1 < (outGrid (chebStep zs)).length →
        (outGrid (chebStep zs)).getD (j + 1) 0 - (outGrid (chebStep zs)).getD j 0
          = chebStep zs)
    ∧ (∀ p ∈ zs.zip vs, interp p.1 (zs.zip vs) = p.2)
    ∧ (∀ (j : ℕ) (p : ℚ × ℚ), p ∈ zs.zip vs → j < (outGrid (chebStep zs)).length →
        (outGrid (chebStep zs)).getD j 0 = p.1 → (resample zs vs).getD j 0 = p.2) := by
  refine ⟨?_, ?_, ?_⟩
  · intro j hj
    have hj' : j < (outGrid (chebStep zs)).length := by omega
    rw [outGrid_getD _ _ hj, outGrid_getD _ _ hj']
    push_cast
    ring
  · exact fun p hp => interp_at_node _ (pairwise_zip_fst hsort hlen) p hp
  · intro j p hp hjlen hcoin
    rw [resample_getD zs vs j hjlen, hcoin]
    exact interp_at_node _ (pairwise_zip_fst hsort hlen) p hp

/-- C8 witness: the amended theorem evaluated on a concrete grid, at the
output point 1/2 which coincides with the native point 1/2. -/
theorem resample_uniform_and_exact_at :
    (resample [0, 1/2, 1] [3, 4, 5]).getD 1 0 = 4 :=
  (resample_uniform_and_exact [0, 1/2, 1] [3, 4, 5] (by decide) rfl).2.2 1 (1/2, 4)
    (by decide) (by decide) (by decide)

/-- C9 (confirmed): because Solve reseeds the global generator with the
constant 42 before drawing, two runs from arbitrary (different) incoming
generator states produce the same increment table when none is supplied,
the same ensemble increment table, and hence, against any deterministic
external solver, identical boundary-value sequences: ensemble generation
is deterministic across runs. -/
theorem solve_reseed_deterministic :
    ∀ (g : ℕ → ℕ → ℝ) (N P : ℕ) (st1 st2 : RngState),
      (solveDraws g N none st1).1 = (solveDraws g N none st2).1
      ∧ (ensembleDraws g N P st1).1 = (ensembleDraws g N P st2).1
      ∧ ∀ (S : Type) (M : SolverModel S) (dt a sig : ℝ) (k : ℕ),
          boundaryVals M (solveDraws g N none st1).1 dt a sig k
            = boundaryVals M (solveDraws g N none st2).1 dt a sig k :=
  fun _ _ _ _ _ => ⟨rfl, rfl, fun _ _ _ _ _ _ => rfl⟩

/-- C10 (confirmed): the total mass of the joint histogram built by the
diffusion operation (state range (lo, hi), gradient range the data's own
min and max) counts exactly the sample pairs whose state coordinate lies
in (lo, hi): the gradient axis excludes nothing; the same holds for the
histogram built by the Expectation operation over the state range
(min y, max y). -/
theorem phi_range_excludes_nothing (Ydata dY2 Y dY y : List ℚ) (lo hi : ℚ) (n : ℕ)
    (hlh : lo < hi) (hn : 0 < n) (hy : listMin y < listMax y) :
    total2 (Ydata.zip dY2) (elo lo hi) (ehi lo hi)
        (elo (listMin dY2) (listMax dY2)) (ehi (listMin dY2) (listMax dY2)) n
      = (Ydata.zip dY2).countP (fun p => decide (lo ≤ p.1 ∧ p.1 ≤ hi))
    ∧ total2 (Y.zip dY) (elo (listMin y) (listMax y)) (ehi (listMin y) (listMax y))
        (elo (listMin dY) (listMax dY)) (ehi (listMin dY) (listMax dY)) n
      = (Y.zip dY).countP (fun p => decide (listMin y ≤ p.1 ∧ p.1 ≤ listMax y)) := by
  constructor
  · rw [elo_eq hlh, ehi_eq hlh]
    exact total2_eq_stateRange Ydata dY2 lo hi n hlh hn
  · rw [elo_eq hy, ehi_eq hy]
    exact total2_eq_stateRange Y dY (listMin y) (listMax y) n hy hn

/-- C10 witness: the theorem evaluated on concrete data; the pair (2, 7)
is excluded by the state range while (0, 5) is kept despite 5 and 7
being far outside any prescribed gradient window. -/
theorem phi_range_excludes_nothing_at :
    total2 ([(0 : ℚ), 2].zip [5, 7]) (elo 0 1) (ehi 0 1)
      (elo (listMin [5, 7]) (listMax [5, 7])) (ehi (listMin [5, 7]) (listMax [5, 7])) 1 = 1 := by
  rw [(phi_range_excludes_nothing [0, 2] [5, 7] [1/2] [9] [0, 1] 0 1 1 (by norm_num)
    (by norm_num) (by decide)).1]
  decide
end MainResults
